import Mathlib

/-!
Verification of the `shrimp` beat-synchronous scheduler (`src/baston/clock.py`)
and its pattern-playback engine (`src/baston/systems/Player.py`).

The Python code is shallowly embedded: the insertion-ordered `dict` that backs
`Clock._children` becomes a `List` of entries whose names are pairwise distinct,
beats become rationals, and the effect of invoking a scheduled payload is
abstracted into an `Outcome` (returns normally, raises `BadFunctionError`, or
raises any other exception).
-/

/-- What happens when a scheduled payload (`func(*args, **kwargs)`) is invoked:
it returns normally, raises the recognized `BadFunctionError`, or raises some
other exception. -/
inductive Outcome where
  | ok : Outcome
  | badFunction : Outcome
  | otherError : Outcome
deriving DecidableEq, Repr

/-- A Python callable as the clock sees it: its `__name__` and the outcome of
calling it.  An anonymous function has `name = "<lambda>"`. -/
structure PyFunc where
  name : String
  outcome : Outcome
deriving DecidableEq, Repr

/-- One entry of `Clock._children` (the `PriorityEvent` dataclass of
`clock.py`): the registry key (`name`), the due beat (`priority`), the stored
payload `item = (func, args, kwargs)` (the captured `args`/`kwargs` are opaque
tokens), and the `once` flag. -/
structure PriorityEvent where
  name : String
  priority : ℚ
  func : PyFunc
  args : ℕ
  kwargs : ℕ
  once : Bool
deriving DecidableEq, Repr

/-- The registry `Clock._children` is a Python `dict`, i.e. an insertion-ordered map with
pairwise-distinct keys; we model it as a list of entries and carry the
distinct-key invariant separately. -/
def NodupNames (cs : List PriorityEvent) : Prop :=
  (cs.map PriorityEvent.name).Nodup

/-- The in-place mutation done by `Clock.add` on an existing entry
(`clock.py` lines 165-166): `priority` and `item` are replaced, every other
field (in particular `once`) is untouched. -/
def overwritePayload (t : ℚ) (func : PyFunc) (args kwargs : ℕ)
    (e : PriorityEvent) : PriorityEvent :=
  { e with priority := t, func := func, args := args, kwargs := kwargs }

/-- The registry identity computed by `Clock.add` (lines 159-162):
`func.__name__` for a named callable, a fresh uuid for an anonymous one. -/
def addIdentity (func : PyFunc) (uuid : String) : String :=
  if func.name ≠ "<lambda>" then func.name else uuid

/-- Embedding of `Clock.add` (clock.py lines 144-174).  `time = None` defaults to
`self.beat + 1`; an existing entry has its `priority` and `item` overwritten in
place, otherwise a new entry is appended.  The function raises nothing. -/
def addEntry (beat : ℚ) (cs : List PriorityEvent) (func : PyFunc) (time : Option ℚ)
    (once : Bool) (args kwargs : ℕ) (uuid : String) : List PriorityEvent :=
  if cs.any (fun e => e.name = addIdentity func uuid) then
    cs.map (fun e =>
      if e.name = addIdentity func uuid then
        overwritePayload (time.getD (beat + 1)) func args kwargs e
      else e)
  else
    cs ++ [⟨addIdentity func uuid, time.getD (beat + 1), func, args, kwargs, once⟩]

/-- One call to `Clock.add`, with the clock beat observed at call time (used
for the `time = None` default) and the uuid that would be drawn for an
anonymous function. -/
structure AddCall where
  beat : ℚ
  func : PyFunc
  time : Option ℚ
  once : Bool
  args : ℕ
  kwargs : ℕ
  uuid : String
deriving DecidableEq, Repr

/-- Apply one `Clock.add` call to the registry. -/
def applyAdd (cs : List PriorityEvent) (c : AddCall) : List PriorityEvent :=
  addEntry c.beat cs c.func c.time c.once c.args c.kwargs c.uuid

/-- Apply a sequence of `Clock.add` calls in order. -/
def applyAdds (cs : List PriorityEvent) (calls : List AddCall) : List PriorityEvent :=
  calls.foldl applyAdd cs

lemma overwritePayload_name (t : ℚ) (func : PyFunc) (args kwargs : ℕ)
    (e : PriorityEvent) : (overwritePayload t func args kwargs e).name = e.name := rfl

lemma addEntry_nodupNames (beat : ℚ) (cs : List PriorityEvent) (func : PyFunc)
    (time : Option ℚ) (once : Bool) (args kwargs : ℕ) (uuid : String)
    (h : NodupNames cs) :
    NodupNames (addEntry beat cs func time once args kwargs uuid) := by
  unfold addEntry
  by_cases hin : (cs.any (fun e => e.name = addIdentity func uuid)) = true
  · simp only [hin, if_true]
    unfold NodupNames
    have hmn : (cs.map (fun e =>
        if e.name = addIdentity func uuid then
          overwritePayload (time.getD (beat + 1)) func args kwargs e
        else e)).map PriorityEvent.name = cs.map PriorityEvent.name := by
      rw [List.map_map]
      apply List.map_congr_left
      intro e _
      by_cases he : e.name = addIdentity func uuid <;>
        simp [he, overwritePayload_name]
    rw [hmn]; exact h
  · rw [if_neg hin]
    unfold NodupNames
    rw [List.map_append]
    refine List.Nodup.append h (by simp) ?_
    intro a ha hb
    simp only [List.map_cons, List.map_nil, List.mem_singleton] at hb
    subst hb
    apply hin
    simp only [List.any_eq_true, decide_eq_true_iff]
    simp only [List.mem_map] at ha
    obtain ⟨e, he, hnm⟩ := ha
    exact ⟨e, he, hnm⟩

lemma applyAdds_nodupNames (cs : List PriorityEvent) (calls : List AddCall)
    (h : NodupNames cs) : NodupNames (applyAdds cs calls) := by
  induction calls generalizing cs with
  | nil => exact h
  | cons c rest ih => exact ih _ (addEntry_nodupNames _ _ _ _ _ _ _ _ h)

/-- In a duplicate-free registry, an entry is determined by its name. -/
lemma name_injective (cs : List PriorityEvent) (h : NodupNames cs)
    (x y : PriorityEvent) (hx : x ∈ cs) (hy : y ∈ cs) (hxy : x.name = y.name) :
    x = y := by
  induction cs with
  | nil => cases hx
  | cons z zs ih =>
      have h2 : NodupNames zs := by
        unfold NodupNames at h ⊢
        simp only [List.map_cons, List.nodup_cons] at h
        exact h.2
      have hz : z.name ∉ zs.map PriorityEvent.name := by
        unfold NodupNames at h
        simp only [List.map_cons, List.nodup_cons] at h
        exact h.1
      rcases List.mem_cons.mp hx with hx1 | hx2 <;>
        rcases List.mem_cons.mp hy with hy1 | hy2
      · rw [hx1, hy1]
      · exfalso
        exact hz (hx1 ▸ hxy ▸ List.mem_map_of_mem PriorityEvent.name hy2)
      · exfalso
        exact hz (hy1 ▸ hxy ▸ List.mem_map_of_mem PriorityEvent.name hx2)
      · exact ih h2 hx2 hy2

/-- Filtering a name-keyed in-place update of a duplicate-free registry at the
updated name yields exactly the updated entry. -/
lemma filter_map_update (cs : List PriorityEvent) (f : String)
    (g : PriorityEvent → PriorityEvent) (hg : ∀ e, (g e).name = e.name)
    (h : NodupNames cs) (x : PriorityEvent) (hx : x ∈ cs) (hxf : x.name = f) :
    (cs.map (fun e => if e.name = f then g e else e)).filter
      (fun e => decide (e.name = f)) = [g x] := by
  induction cs with
  | nil => cases hx
  | cons y ys ih =>
      have h2 : NodupNames ys := by
        unfold NodupNames at h ⊢
        simp only [List.map_cons, List.nodup_cons] at h
        exact h.2
      have hy0 : y.name ∉ ys.map PriorityEvent.name := by
        unfold NodupNames at h
        simp only [List.map_cons, List.nodup_cons] at h
        exact h.1
      by_cases hy : y.name = f
      · -- the head is the unique entry named `f`; hence `x = y`
        have hxy : x = y := by
          rcases List.mem_cons.mp hx with h1 | h2'
          · exact h1
          · exfalso
            exact hy0 (hy ▸ hxf ▸ List.mem_map_of_mem PriorityEvent.name h2')
        have hys : ∀ e ∈ ys, ¬ e.name = f := by
          intro e he hef
          exact hy0 (hy ▸ hef ▸ List.mem_map_of_mem PriorityEvent.name he)
        have hmap : ys.map (fun e => if e.name = f then g e else e) = ys := by
          have hmap0 : ys.map (fun e => if e.name = f then g e else e) = ys.map id :=
            List.map_congr_left (fun e he => by simp [hys e he])
          simpa using hmap0
        have hfil : ys.filter (fun e => decide (e.name = f)) = [] := by
          apply List.filter_eq_nil_iff.mpr
          intro e he
          simp [hys e he]
        simp only [List.map_cons, hy, if_true, hmap, List.filter_cons, hg, hxy]
        simp [hy, hfil]
      · have hx2 : x ∈ ys := by
          rcases List.mem_cons.mp hx with h1 | h2'
          · exact absurd (h1 ▸ hxf) hy
          · exact h2'
        have := ih h2 hx2
        simp only [List.map_cons, hy, if_false, List.filter_cons]
        simp only [decide_eq_true_iff, hy, if_false]
        simpa using this

/-- After an `add` whose identity resolves to `f`: the registry filtered at `f`
is exactly one entry carrying the call's time (or the `beat + 1` default) and
payload; its `once` flag is the pre-existing entry's when `f` was present, and
the call's when `f` was fresh. -/
lemma applyAdd_filter (cs : List PriorityEvent) (c : AddCall) (f : String)
    (hn : c.func.name = f) (hl : f ≠ "<lambda>") (h : NodupNames cs) :
    ∃ o : Bool,
      (applyAdd cs c).filter (fun e => decide (e.name = f)) =
        [⟨f, c.time.getD (c.beat + 1), c.func, c.args, c.kwargs, o⟩] := by
  have hid : addIdentity c.func c.uuid = f := by
    unfold addIdentity
    rw [hn]
    simp [hl]
  unfold applyAdd addEntry
  rw [hid]
  by_cases hin : (cs.any (fun e => e.name = f)) = true
  · simp only [hin, if_true]
    obtain ⟨x, hx, hxf⟩ : ∃ x ∈ cs, x.name = f := by
      simpa only [List.any_eq_true, decide_eq_true_iff] using hin
    refine ⟨x.once, ?_⟩
    have hupd := filter_map_update cs f
      (overwritePayload (c.time.getD (c.beat + 1)) c.func c.args c.kwargs)
      (fun e => rfl) h x hx hxf
    rw [hupd]
    unfold overwritePayload
    cases x
    simp_all
  · rw [if_neg hin]
    refine ⟨c.once, ?_⟩
    rw [List.filter_append]
    have hnil : cs.filter (fun e => decide (e.name = f)) = [] := by
      apply List.filter_eq_nil_iff.mpr
      intro e he
      simp only [decide_eq_true_iff]
      intro hef
      exact hin (by simp only [List.any_eq_true, decide_eq_true_iff]; exact ⟨e, he, hef⟩)
    rw [hnil]
    simp

/-- Main lemma for C2: after a nonempty sequence of `add` calls resolving to
the same non-anonymous identity `f`, the registry filtered at `f` is exactly
one entry with the last call's time and payload. -/
lemma applyAdds_last (cs : List PriorityEvent) (init : List AddCall) (c : AddCall)
    (f : String) (hall : ∀ d ∈ init ++ [c], d.func.name = f) (hl : f ≠ "<lambda>")
    (h : NodupNames cs) :
    ∃ o : Bool,
      (applyAdds cs (init ++ [c])).filter (fun e => decide (e.name = f)) =
        [⟨f, c.time.getD (c.beat + 1), c.func, c.args, c.kwargs, o⟩] := by
  have hsplit : applyAdds cs (init ++ [c]) = applyAdd (applyAdds cs init) c := by
    unfold applyAdds
    rw [List.foldl_append]
    rfl
  rw [hsplit]
  exact applyAdd_filter _ _ _ (hall c (by simp)) hl (applyAdds_nodupNames _ _ h)

/-- C2: for every sequence of `add` calls resolving to the same non-anonymous
identity `f`, the registry afterwards contains exactly one entry named `f`,
whose due beat and payload (function, args, kwargs) are those of the most
recent call; no duplicate is created (the distinct-name invariant is kept) and
the embedded `add` is total, mirroring that the source raises no error on
overwrite. -/
theorem clock_add_idempotent_reschedule
    (cs : List PriorityEvent) (init : List AddCall) (c : AddCall) (f : String)
    (hall : ∀ d ∈ init ++ [c], d.func.name = f) (hl : f ≠ "<lambda>")
    (h : NodupNames cs) :
    ((applyAdds cs (init ++ [c])).filter (fun e => decide (e.name = f))).length = 1 ∧
    (∀ e ∈ applyAdds cs (init ++ [c]), e.name = f →
      e.priority = c.time.getD (c.beat + 1) ∧ e.func = c.func ∧
      e.args = c.args ∧ e.kwargs = c.kwargs) ∧
    NodupNames (applyAdds cs (init ++ [c])) := by
  obtain ⟨o, ho⟩ := applyAdds_last cs init c f hall hl h
  refine ⟨by rw [ho]; rfl, ?_, applyAdds_nodupNames _ _ h⟩
  intro e he hef
  have hmem : e ∈ (applyAdds cs (init ++ [c])).filter (fun x => decide (x.name = f)) :=
    List.mem_filter.mpr ⟨he, by simp [hef]⟩
  rw [ho] at hmem
  simp only [List.mem_singleton] at hmem
  subst hmem
  exact ⟨rfl, rfl, rfl, rfl⟩

def c2CallA : AddCall := ⟨0, ⟨"beep", Outcome.ok⟩, some 2, false, 5, 5, "u1"⟩

def c2CallB : AddCall := ⟨3, ⟨"beep", Outcome.ok⟩, some 7, true, 9, 4, "u2"⟩

theorem clock_add_idempotent_reschedule_witness :
    (∀ d ∈ [c2CallA] ++ [c2CallB], d.func.name = "beep") ∧
    ("beep" : String) ≠ "<lambda>" ∧
    ((applyAdds [] ([c2CallA] ++ [c2CallB])).filter
      (fun e => decide (e.name = "beep"))).length = 1 ∧
    (∀ e ∈ applyAdds [] ([c2CallA] ++ [c2CallB]), e.name = "beep" →
      e.priority = c2CallB.time.getD (c2CallB.beat + 1) ∧ e.func = c2CallB.func ∧
      e.args = c2CallB.args ∧ e.kwargs = c2CallB.kwargs) :=
  ⟨by decide, by decide,
   (clock_add_idempotent_reschedule [] [c2CallA] c2CallB "beep"
      (by decide) (by decide) List.nodup_nil).1,
   (clock_add_idempotent_reschedule [] [c2CallA] c2CallB "beep"
      (by decide) (by decide) List.nodup_nil).2.1⟩

/-- C10: when `add` overwrites an entry already present under identity `f`,
only the due beat (`priority`) and payload (`func`, `args`, `kwargs`) are
replaced; the entry keeps the `once` flag it was created with, and the `once`
argument of the overwriting call (`c.once`, unconstrained here) is ignored. -/
theorem clock_add_overwrite_keeps_once
    (cs : List PriorityEvent) (c : AddCall) (e : PriorityEvent) (f : String)
    (h : NodupNames cs) (he : e ∈ cs) (hef : e.name = f)
    (hn : c.func.name = f) (hl : f ≠ "<lambda>") :
    ∀ x ∈ applyAdd cs c, x.name = f →
      x.once = e.once ∧ x.priority = c.time.getD (c.beat + 1) ∧
      x.func = c.func ∧ x.args = c.args ∧ x.kwargs = c.kwargs := by
  intro x hx hxf
  have hid : addIdentity c.func c.uuid = f := by
    unfold addIdentity
    rw [hn]
    simp [hl]
  have hin : (cs.any (fun y => y.name = f)) = true := by
    simp only [List.any_eq_true, decide_eq_true_iff]
    exact ⟨e, he, hef⟩
  have hform : applyAdd cs c = cs.map (fun y =>
      if y.name = f then
        overwritePayload (c.time.getD (c.beat + 1)) c.func c.args c.kwargs y
      else y) := by
    unfold applyAdd addEntry
    rw [hid, if_pos hin]
  have hupd := filter_map_update cs f
    (overwritePayload (c.time.getD (c.beat + 1)) c.func c.args c.kwargs)
    (fun y => rfl) h e he hef
  have hmem : x ∈ (applyAdd cs c).filter (fun y => decide (y.name = f)) :=
    List.mem_filter.mpr ⟨hx, by simp [hxf]⟩
  rw [hform] at hmem
  rw [hupd] at hmem
  simp only [List.mem_singleton] at hmem
  subst hmem
  exact ⟨rfl, rfl, rfl, rfl, rfl⟩

def c10Entry : PriorityEvent := ⟨"beep", 2, ⟨"beep", Outcome.ok⟩, 1, 1, true⟩

def c10Call : AddCall := ⟨4, ⟨"beep", Outcome.badFunction⟩, some 9, false, 7, 8, "u3"⟩

theorem clock_add_overwrite_keeps_once_witness :
    c10Entry ∈ [c10Entry] ∧ c10Call.once = false ∧
    (∀ x ∈ applyAdd [c10Entry] c10Call, x.name = "beep" →
      x.once = c10Entry.once ∧ x.priority = c10Call.time.getD (c10Call.beat + 1) ∧
      x.func = c10Call.func ∧ x.args = c10Call.args ∧ x.kwargs = c10Call.kwargs) :=
  ⟨by decide, by decide,
   clock_add_overwrite_keeps_once [c10Entry] c10Call c10Entry "beep"
     (by unfold NodupNames; decide) (by decide) (by decide) (by decide) (by decide)⟩

/-- The comparison used by
`sorted(self._children.values(), key=lambda event: event.priority)`. -/
def priorityLE (a b : PriorityEvent) : Prop := a.priority ≤ b.priority

instance : DecidableRel priorityLE :=
  fun a b => inferInstanceAs (Decidable (a.priority ≤ b.priority))

instance : IsTotal PriorityEvent priorityLE :=
  ⟨fun a b => le_total a.priority b.priority⟩

instance : IsTrans PriorityEvent priorityLE :=
  ⟨fun _ _ _ h1 h2 => le_trans h1 h2⟩

/-- The snapshot `sorted(self._children.values(), key=...)` taken at the start
of `_execute_due_functions`: Python's `sorted` is stable, so it coincides with
insertion sort by the priority key over the dict's insertion order. -/
def sortByPriority (cs : List PriorityEvent) : List PriorityEvent :=
  List.insertionSort priorityLE cs

/-- Deletion `del self._children[name]`: remove the (unique) entry with that key. -/
def eraseName (cs : List PriorityEvent) (n : String) : List PriorityEvent :=
  cs.eraseP (fun e => e.name == n)

/-- Result of one call to `Clock._execute_due_functions`: the registry after
the pass, the entries whose payload got invoked (in invocation order), and
whether an exception escaped the pass (which would kill the `run` loop
thread). -/
structure PassResult where
  children : List PriorityEvent
  invoked : List PriorityEvent
  crashed : Bool
deriving DecidableEq, Repr

/-- The `for callable in possible_callables` loop of
`_execute_due_functions` (clock.py lines 129-138).  A due entry's payload is
invoked; if it returns, a `once` entry is deleted; a `BadFunctionError` is
caught (skipping the deletion) and the loop continues; any other exception
propagates, aborting the loop and the clock thread. -/
def passLoop (beat : ℚ) : List PriorityEvent → List PriorityEvent → PassResult
  | [], cs => ⟨cs, [], false⟩
  | c :: rest, cs =>
    if c.priority ≤ beat then
      match c.func.outcome with
      | Outcome.ok =>
        let cs1 := if c.once then eraseName cs c.name else cs
        let r := passLoop beat rest cs1
        ⟨r.children, c :: r.invoked, r.crashed⟩
      | Outcome.badFunction =>
        let r := passLoop beat rest cs
        ⟨r.children, c :: r.invoked, r.crashed⟩
      | Outcome.otherError => ⟨cs, [c], true⟩
    else passLoop beat rest cs

/-- Embedding of `Clock._execute_due_functions` (clock.py lines 125-138). -/
def execPass (beat : ℚ) (cs : List PriorityEvent) : PassResult :=
  passLoop beat (sortByPriority cs) cs

/-- When no payload raises an unrecognized exception, a pass invokes exactly
the due entries of the sorted snapshot, in snapshot order, and does not
crash. -/
lemma passLoop_invoked (beat : ℚ) (possible : List PriorityEvent)
    (h : ∀ e ∈ possible, e.func.outcome ≠ Outcome.otherError) :
    ∀ cs : List PriorityEvent,
      (passLoop beat possible cs).invoked =
        possible.filter (fun e => decide (e.priority ≤ beat)) ∧
      (passLoop beat possible cs).crashed = false := by
  induction possible with
  | nil => intro cs; exact ⟨rfl, rfl⟩
  | cons c rest ih =>
      intro cs
      have hc := h c (by simp)
      have hrest : ∀ e ∈ rest, e.func.outcome ≠ Outcome.otherError :=
        fun e he => h e (by simp [he])
      by_cases hd : c.priority ≤ beat
      · cases hoc : c.func.outcome with
        | ok =>
            have := ih hrest (if c.once then eraseName cs c.name else cs)
            simp only [passLoop, if_pos hd, hoc, List.filter_cons, hd,
              decide_eq_true_eq, decide_True, if_true]
            exact ⟨by rw [this.1], this.2⟩
        | badFunction =>
            have := ih hrest cs
            simp only [passLoop, if_pos hd, hoc, List.filter_cons, hd,
              decide_eq_true_eq, decide_True, if_true]
            exact ⟨by rw [this.1], this.2⟩
        | otherError => exact absurd hoc hc
      · have := ih hrest cs
        simp only [passLoop, if_neg hd, List.filter_cons]
        have hdd : (decide (c.priority ≤ beat)) = false := by
          simpa using hd
        rw [hdd]
        simpa using this

/-- An entry both due and `once` whose payload returns normally: those are the
entries the pass deletes from the registry. -/
def firesOnce (beat : ℚ) (e : PriorityEvent) : Bool :=
  decide (e.priority ≤ beat) && e.once && decide (e.func.outcome = Outcome.ok)

/-- When no payload raises an unrecognized exception, the registry after the
pass is the input registry minus the names of the entries that fired with
`once=true` and returned normally. -/
lemma passLoop_children (beat : ℚ) (possible : List PriorityEvent)
    (h : ∀ e ∈ possible, e.func.outcome ≠ Outcome.otherError) :
    ∀ cs : List PriorityEvent,
      (passLoop beat possible cs).children =
        (possible.filter (firesOnce beat)).foldl
          (fun acc x => eraseName acc x.name) cs := by
  induction possible with
  | nil => intro cs; rfl
  | cons c rest ih =>
      intro cs
      have hc := h c (by simp)
      have hrest : ∀ e ∈ rest, e.func.outcome ≠ Outcome.otherError :=
        fun e he => h e (by simp [he])
      by_cases hd : c.priority ≤ beat
      · cases hoc : c.func.outcome with
        | ok =>
            by_cases ho : c.once = true
            · have hfo : firesOnce beat c = true := by
                unfold firesOnce
                simp [hd, ho, hoc]
              simp only [passLoop, if_pos hd, hoc, ho, if_true, List.filter_cons, hfo]
              exact ih hrest (eraseName cs c.name)
            · have hfo : firesOnce beat c = false := by
                unfold firesOnce
                simp only [Bool.not_eq_true] at ho
                simp [ho]
              have ho' : c.once = false := by simpa using ho
              simp only [passLoop, if_pos hd, hoc, ho', if_false, List.filter_cons, hfo]
              exact ih hrest cs
        | badFunction =>
            have hfo : firesOnce beat c = false := by
              unfold firesOnce
              simp [hoc]
            simp only [passLoop, if_pos hd, hoc, List.filter_cons, hfo]
            exact ih hrest cs
        | otherError => exact absurd hoc hc
      · have hfo : firesOnce beat c = false := by
          unfold firesOnce
          simp [hd]
        simp only [passLoop, if_neg hd, List.filter_cons, hfo]
        exact ih hrest cs

lemma eraseName_sublist (cs : List PriorityEvent) (n : String) :
    List.Sublist (eraseName cs n) cs :=
  List.eraseP_sublist cs

lemma eraseName_nodupNames (cs : List PriorityEvent) (n : String)
    (h : NodupNames cs) : NodupNames (eraseName cs n) :=
  h.sublist ((eraseName_sublist cs n).map PriorityEvent.name)

/-- Deleting key `n` from a duplicate-free registry leaves no entry named `n`
(there was at most one). -/
lemma eraseName_not_mem (cs : List PriorityEvent) (n : String)
    (h : NodupNames cs) : ∀ x ∈ eraseName cs n, x.name ≠ n := by
  induction cs with
  | nil => intro x hx; cases hx
  | cons y ys ih =>
      have h2 : NodupNames ys := by
        unfold NodupNames at h ⊢
        simp only [List.map_cons, List.nodup_cons] at h
        exact h.2
      have hy0 : y.name ∉ ys.map PriorityEvent.name := by
        unfold NodupNames at h
        simp only [List.map_cons, List.nodup_cons] at h
        exact h.1
      intro x hx
      by_cases hy : y.name = n
      · have : eraseName (y :: ys) n = ys := by
          unfold eraseName
          simp [List.eraseP_cons, hy]
        rw [this] at hx
        intro hxn
        exact hy0 (hy ▸ hxn ▸ List.mem_map_of_mem PriorityEvent.name hx)
      · have : eraseName (y :: ys) n = y :: eraseName ys n := by
          unfold eraseName
          simp [List.eraseP_cons, hy]
        rw [this] at hx
        rcases List.mem_cons.mp hx with h1 | h1
        · rw [h1]; exact hy
        · exact ih h2 x h1

/-- An entry whose name differs from the deleted key survives the deletion. -/
lemma mem_eraseName_of_ne (cs : List PriorityEvent) (n : String)
    (x : PriorityEvent) (hx : x ∈ cs) (hxn : x.name ≠ n) :
    x ∈ eraseName cs n := by
  induction cs with
  | nil => cases hx
  | cons y ys ih =>
      by_cases hy : y.name = n
      · have : eraseName (y :: ys) n = ys := by
          unfold eraseName
          simp [List.eraseP_cons, hy]
        rw [this]
        rcases List.mem_cons.mp hx with h1 | h1
        · exact absurd (h1 ▸ hy) hxn
        · exact h1
      · have : eraseName (y :: ys) n = y :: eraseName ys n := by
          unfold eraseName
          simp [List.eraseP_cons, hy]
        rw [this]
        rcases List.mem_cons.mp hx with h1 | h1
        · exact h1 ▸ List.mem_cons_self y _
        · exact List.mem_cons_of_mem y (ih h1)

lemma foldl_eraseName_sublist (L : List PriorityEvent) :
    ∀ cs : List PriorityEvent,
      List.Sublist (L.foldl (fun acc x => eraseName acc x.name) cs) cs := by
  induction L with
  | nil => intro cs; exact List.Sublist.refl cs
  | cons d ds ih =>
      intro cs
      exact (ih (eraseName cs d.name)).trans (eraseName_sublist cs d.name)

lemma foldl_eraseName_nodupNames (L : List PriorityEvent)
    (cs : List PriorityEvent) (h : NodupNames cs) :
    NodupNames (L.foldl (fun acc x => eraseName acc x.name) cs) :=
  h.sublist ((foldl_eraseName_sublist L cs).map PriorityEvent.name)

/-- Once some `d ∈ L` gets its name deleted, no entry of that name remains
after the whole fold. -/
lemma name_absent_after_fold (L : List PriorityEvent) (cs : List PriorityEvent)
    (h : NodupNames cs) (d : PriorityEvent) (hd : d ∈ L) :
    ∀ x ∈ L.foldl (fun acc y => eraseName acc y.name) cs, x.name ≠ d.name := by
  induction L generalizing cs with
  | nil => cases hd
  | cons y ys ih =>
      intro x hx
      rcases List.mem_cons.mp hd with h1 | h1
      · -- the head deletion removes `d.name`; later deletions only shrink
        have hstep : ∀ z ∈ eraseName cs y.name, z.name ≠ y.name :=
          eraseName_not_mem cs y.name h
        have hsub : List.Sublist
            (ys.foldl (fun acc z => eraseName acc z.name) (eraseName cs y.name))
            (eraseName cs y.name) :=
          foldl_eraseName_sublist ys _
        have hx' : x ∈ eraseName cs y.name := hsub.mem hx
        rw [h1]
        exact hstep x hx'
      · exact ih (eraseName cs y.name) (eraseName_nodupNames cs y.name h) h1 x hx

/-- An entry whose name is hit by none of the deletions survives the fold. -/
lemma mem_fold_of_name_notin (L : List PriorityEvent) (cs : List PriorityEvent)
    (x : PriorityEvent) (hx : x ∈ cs) (hL : ∀ d ∈ L, d.name ≠ x.name) :
    x ∈ L.foldl (fun acc y => eraseName acc y.name) cs := by
  induction L generalizing cs with
  | nil => exact hx
  | cons y ys ih =>
      have hxy : x.name ≠ y.name := fun hh => (hL y (by simp)) hh.symm
      exact ih (eraseName cs y.name) (mem_eraseName_of_ne cs y.name x hx hxy)
        (fun d hd => hL d (by simp [hd]))

/-- Stability of the sort, phrased per priority class: inserting an element
walks past strictly smaller priorities only, so the entries of any fixed
priority keep their relative order. -/
lemma filter_orderedInsert (p : ℚ) (e : PriorityEvent) (l : List PriorityEvent) :
    (List.orderedInsert priorityLE e l).filter (fun x => decide (x.priority = p)) =
      if e.priority = p then
        e :: l.filter (fun x => decide (x.priority = p))
      else l.filter (fun x => decide (x.priority = p)) := by
  induction l with
  | nil =>
      by_cases he : e.priority = p <;> simp [List.orderedInsert, he]
  | cons x xs ih =>
      by_cases hle : priorityLE e x
      · rw [List.orderedInsert_of_le priorityLE xs hle]
        by_cases he : e.priority = p <;> simp [List.filter_cons, he]
      · have hxe : x.priority < e.priority := by
          unfold priorityLE at hle
          exact lt_of_not_le hle
        have : List.orderedInsert priorityLE e (x :: xs) =
            x :: List.orderedInsert priorityLE e xs := by
          simp only [List.orderedInsert]
          rw [if_neg hle]
        rw [this]
        by_cases he : e.priority = p
        · have hxp : ¬ x.priority = p := by
            intro hh
            rw [hh, ← he] at hxe
            exact absurd he (ne_of_gt (he ▸ hxe))
          simp only [List.filter_cons]
          rw [ih]
          simp [he, hxp]
        · simp only [List.filter_cons]
          rw [ih]
          simp [he]

/-- Python's stable sort keeps each priority class in registry
(insertion) order. -/
lemma filter_sortByPriority (p : ℚ) (cs : List PriorityEvent) :
    (sortByPriority cs).filter (fun x => decide (x.priority = p)) =
      cs.filter (fun x => decide (x.priority = p)) := by
  induction cs with
  | nil => rfl
  | cons x xs ih =>
      unfold sortByPriority at ih ⊢
      simp only [List.insertionSort]
      rw [filter_orderedInsert]
      by_cases hx : x.priority = p
      · rw [if_pos hx, ih]
        simp [List.filter_cons, hx]
      · rw [if_neg hx, ih]
        simp [List.filter_cons, hx]

/-- C1 counterexample entries: a due payload raising an unrecognized exception
(`otherError`), registered before a due well-behaved payload. -/
def c1Boom : PriorityEvent := ⟨"boom", 0, ⟨"boom", Outcome.otherError⟩, 0, 0, false⟩

def c1Fine : PriorityEvent := ⟨"fine", 0, ⟨"fine", Outcome.ok⟩, 0, 0, false⟩

/-- C1 counterexample: with registry `[boom, fine]` (both due at beat 0) where
`boom`'s payload raises an exception other than `BadFunctionError`, the pass
crashes (the exception escapes `_execute_due_functions`, terminating the `run`
loop thread) and the other due entry `fine` is never invoked — refuting the
claim that failures of any kind are contained per-entry. -/
theorem clock_pass_any_failure_contained_counterexample :
    (execPass 0 [c1Boom, c1Fine]).crashed = true ∧
    c1Fine ∉ (execPass 0 [c1Boom, c1Fine]).invoked ∧
    c1Fine.priority ≤ (0 : ℚ) := by
  refine ⟨rfl, ?_, le_refl 0⟩
  decide

/-- C1 (amended): only the recognized malformed-action condition
(`BadFunctionError`) is contained per-entry.  When no payload raises an
unrecognized exception, a loop pass runs to completion (the loop thread
survives) and every due entry — including those raising `BadFunctionError` —
is invoked. -/
theorem clock_pass_badfunction_contained (beat : ℚ) (cs : List PriorityEvent)
    (h : ∀ e ∈ cs, e.func.outcome ≠ Outcome.otherError) :
    (execPass beat cs).crashed = false ∧
    ∀ e ∈ cs, e.priority ≤ beat → e ∈ (execPass beat cs).invoked := by
  have hperm := List.perm_insertionSort priorityLE cs
  have h2 : ∀ e ∈ sortByPriority cs, e.func.outcome ≠ Outcome.otherError :=
    fun e he => h e (hperm.mem_iff.mp he)
  obtain ⟨hinv, hcr⟩ := passLoop_invoked beat (sortByPriority cs) h2 cs
  refine ⟨hcr, ?_⟩
  intro e he hd
  have he2 : e ∈ sortByPriority cs := hperm.mem_iff.mpr he
  show e ∈ (passLoop beat (sortByPriority cs) cs).invoked
  rw [hinv]
  exact List.mem_filter.mpr ⟨he2, by simpa using hd⟩

def c1Bad : PriorityEvent := ⟨"bad", 0, ⟨"bad", Outcome.badFunction⟩, 0, 0, false⟩

def c1Other : PriorityEvent := ⟨"other", 1, ⟨"other", Outcome.ok⟩, 0, 0, false⟩

theorem clock_pass_badfunction_contained_witness :
    (∀ e ∈ [c1Bad, c1Other], e.func.outcome ≠ Outcome.otherError) ∧
    (execPass 1 [c1Bad, c1Other]).crashed = false ∧
    (∀ e ∈ [c1Bad, c1Other], e.priority ≤ 1 → e ∈ (execPass 1 [c1Bad, c1Other]).invoked) :=
  ⟨by decide,
   (clock_pass_badfunction_contained 1 [c1Bad, c1Other] (by decide)).1,
   (clock_pass_badfunction_contained 1 [c1Bad, c1Other] (by decide)).2⟩

/-- C3: in a single loop pass (with no unrecognized payload failure), exactly
the entries with `due_beat <= current_beat` are invoked: the invoked list is
the priority-sorted snapshot restricted to due entries, every invoked entry is
due, every due registry entry is invoked, the invocations are in ascending
priority order, and each priority class appears in registry insertion order
(Python's stable sort breaks ties deterministically). -/
theorem clock_pass_due_ordering (beat : ℚ) (cs : List PriorityEvent)
    (h : ∀ e ∈ cs, e.func.outcome ≠ Outcome.otherError) :
    (execPass beat cs).invoked =
      (sortByPriority cs).filter (fun e => decide (e.priority ≤ beat)) ∧
    (∀ e ∈ (execPass beat cs).invoked, e.priority ≤ beat) ∧
    (∀ e ∈ cs, e.priority ≤ beat → e ∈ (execPass beat cs).invoked) ∧
    (execPass beat cs).invoked.Pairwise priorityLE ∧
    (∀ p : ℚ, (execPass beat cs).invoked.filter (fun e => decide (e.priority = p)) =
      cs.filter (fun e => decide (e.priority = p) && decide (e.priority ≤ beat))) := by
  have hperm := List.perm_insertionSort priorityLE cs
  have h2 : ∀ e ∈ sortByPriority cs, e.func.outcome ≠ Outcome.otherError :=
    fun e he => h e (hperm.mem_iff.mp he)
  obtain ⟨hinv, hcr⟩ := passLoop_invoked beat (sortByPriority cs) h2 cs
  have hsorted : (sortByPriority cs).Pairwise priorityLE :=
    List.sorted_insertionSort priorityLE cs
  refine ⟨hinv, ?_, ?_, ?_, ?_⟩
  · intro e he
    rw [show (execPass beat cs).invoked =
      (passLoop beat (sortByPriority cs) cs).invoked from rfl, hinv] at he
    have := List.mem_filter.mp he
    simpa using this.2
  · intro e he hd
    show e ∈ (passLoop beat (sortByPriority cs) cs).invoked
    rw [hinv]
    exact List.mem_filter.mpr ⟨hperm.mem_iff.mpr he, by simpa using hd⟩
  · show (passLoop beat (sortByPriority cs) cs).invoked.Pairwise priorityLE
    rw [hinv]
    exact hsorted.sublist (List.filter_sublist _)
  · intro p
    show ((passLoop beat (sortByPriority cs) cs).invoked).filter
        (fun e => decide (e.priority = p)) = _
    rw [hinv, List.filter_filter]
    have hcomm1 : (sortByPriority cs).filter
        (fun e => decide (e.priority = p) && decide (e.priority ≤ beat)) =
        ((sortByPriority cs).filter (fun e => decide (e.priority = p))).filter
          (fun e => decide (e.priority ≤ beat)) := by
      rw [List.filter_filter]
      exact List.filter_congr (fun e _ => by rw [Bool.and_comm])
    rw [hcomm1, filter_sortByPriority, List.filter_filter]
    exact List.filter_congr (fun e _ => by rw [Bool.and_comm])

def c3A : PriorityEvent := ⟨"a", 2, ⟨"a", Outcome.ok⟩, 0, 0, false⟩

def c3B : PriorityEvent := ⟨"b", 2, ⟨"b", Outcome.ok⟩, 0, 0, false⟩

def c3C : PriorityEvent := ⟨"c", 5, ⟨"c", Outcome.ok⟩, 0, 0, false⟩

def c3D : PriorityEvent := ⟨"d", 1, ⟨"d", Outcome.ok⟩, 0, 0, false⟩

def c3E : PriorityEvent := ⟨"e", 6, ⟨"e", Outcome.ok⟩, 0, 0, false⟩

/-- The spec's own example: entries due at `[2, 2, 5, 1]` plus one at `6`,
current beat `5`: the pass runs `1, 2, 2, 5` in that order (ties `a`,`b` in
insertion order) and the entry due at `6` does not fire. -/
theorem clock_pass_due_ordering_witness :
    (∀ e ∈ [c3A, c3B, c3C, c3D, c3E], e.func.outcome ≠ Outcome.otherError) ∧
    (execPass 5 [c3A, c3B, c3C, c3D, c3E]).invoked =
      (sortByPriority [c3A, c3B, c3C, c3D, c3E]).filter
        (fun e => decide (e.priority ≤ 5)) ∧
    (execPass 5 [c3A, c3B, c3C, c3D, c3E]).invoked = [c3D, c3A, c3B, c3C] ∧
    c3E ∉ (execPass 5 [c3A, c3B, c3C, c3D, c3E]).invoked :=
  ⟨by decide,
   (clock_pass_due_ordering 5 [c3A, c3B, c3C, c3D, c3E] (by decide)).1,
   by decide, by decide⟩

/-- C4 counterexample entry: a `once` entry, due at beat 0, whose payload
raises `BadFunctionError`. -/
def c4Raising : PriorityEvent := ⟨"f", 0, ⟨"f", Outcome.badFunction⟩, 0, 0, true⟩

/-- C4 counterexample: in the source, `del self._children[callable.name]` sits
after the payload call inside the `try`, so a `once` entry whose payload raises
is invoked yet NOT removed: after a pass at beat ≥ its due beat it is still in
the registry, and a second pass invokes it again — refuting both "invoked
exactly once" and "absent from the registry on all subsequent passes
(including when the payload itself raises)". -/
theorem clock_once_counterexample :
    (execPass 0 [c4Raising]).invoked = [c4Raising] ∧
    (execPass 0 [c4Raising]).children = [c4Raising] ∧
    (execPass 0 ((execPass 0 [c4Raising]).children)).invoked = [c4Raising] := by
  refine ⟨?_, ?_, ?_⟩ <;> decide

/-- C4 (amended): an entry added with `once=true` and due beat `B` whose
payload returns normally is, in a pass at current beat ≥ `B` (none of whose
payloads raises an unrecognized exception), invoked exactly once and its name
is absent from the registry afterwards; in a pass at current beat < `B` it is
neither invoked nor removed. -/
theorem clock_once_semantics (beat : ℚ) (cs : List PriorityEvent)
    (e : PriorityEvent) (hmem : e ∈ cs) (honce : e.once = true)
    (hok : e.func.outcome = Outcome.ok) (hnd : NodupNames cs)
    (hno : ∀ x ∈ cs, x.func.outcome ≠ Outcome.otherError) :
    (e.priority ≤ beat →
      (execPass beat cs).invoked.count e = 1 ∧
      ∀ x ∈ (execPass beat cs).children, x.name ≠ e.name) ∧
    (beat < e.priority →
      e ∉ (execPass beat cs).invoked ∧ e ∈ (execPass beat cs).children) := by
  have hperm := List.perm_insertionSort priorityLE cs
  have h2 : ∀ x ∈ sortByPriority cs, x.func.outcome ≠ Outcome.otherError :=
    fun x hx => hno x (hperm.mem_iff.mp hx)
  obtain ⟨hinv, _⟩ := passLoop_invoked beat (sortByPriority cs) h2 cs
  have hch := passLoop_children beat (sortByPriority cs) h2 cs
  have hnodup : cs.Nodup := List.Nodup.of_map PriorityEvent.name hnd
  constructor
  · intro hdue
    constructor
    · show (passLoop beat (sortByPriority cs) cs).invoked.count e = 1
      rw [hinv]
      rw [List.count_filter (by simpa using hdue)]
      show (List.insertionSort priorityLE cs).count e = 1
      rw [hperm.count_eq e]
      exact List.count_eq_one_of_mem hnodup hmem
    · show ∀ x ∈ (passLoop beat (sortByPriority cs) cs).children, x.name ≠ e.name
      rw [hch]
      have hfo : firesOnce beat e = true := by
        unfold firesOnce
        simp [hdue, honce, hok]
      have hein : e ∈ (sortByPriority cs).filter (firesOnce beat) :=
        List.mem_filter.mpr ⟨hperm.mem_iff.mpr hmem, hfo⟩
      exact name_absent_after_fold _ cs hnd e hein
  · intro hlate
    have hnotdue : ¬ e.priority ≤ beat := not_le.mpr hlate
    constructor
    · show e ∉ (passLoop beat (sortByPriority cs) cs).invoked
      rw [hinv]
      intro hin
      exact hnotdue (by simpa using (List.mem_filter.mp hin).2)
    · show e ∈ (passLoop beat (sortByPriority cs) cs).children
      rw [hch]
      apply mem_fold_of_name_notin _ cs e hmem
      intro d hd hdn
      have hd2 := List.mem_filter.mp hd
      have hdcs : d ∈ cs := hperm.mem_iff.mp hd2.1
      have hde : d = e := name_injective cs hnd d e hdcs hmem hdn
      have : decide (d.priority ≤ beat) = true := by
        have hfo := hd2.2
        unfold firesOnce at hfo
        exact (Bool.and_eq_true_iff.mp (Bool.and_eq_true_iff.mp hfo).1).1
      rw [hde] at this
      exact hnotdue (by simpa using this)

def c4Once : PriorityEvent := ⟨"f", 2, ⟨"f", Outcome.ok⟩, 0, 0, true⟩

def c4Other : PriorityEvent := ⟨"g", 1, ⟨"g", Outcome.ok⟩, 1, 1, false⟩

theorem clock_once_semantics_witness :
    c4Once ∈ [c4Once, c4Other] ∧ c4Once.priority ≤ 3 ∧
    (execPass 3 [c4Once, c4Other]).invoked.count c4Once = 1 ∧
    (∀ x ∈ (execPass 3 [c4Once, c4Other]).children, x.name ≠ c4Once.name) ∧
    (execPass 3 [c4Once, c4Other]).children = [c4Other] :=
  ⟨by decide, by decide,
   ((clock_once_semantics 3 [c4Once, c4Other] c4Once (by decide) (by decide)
      (by decide) (by unfold NodupNames; decide) (by decide)).1 (by decide)).1,
   ((clock_once_semantics 3 [c4Once, c4Other] c4Once (by decide) (by decide)
      (by decide) (by unfold NodupNames; decide) (by decide)).1 (by decide)).2,
   by decide⟩

/-- The value Python's `threading.Thread(...).start()` returns — `None` — which
`Clock.start` stores into `self._clock_thread`. -/
def threadStartReturn : Option Unit := none

/-- The state `Clock.start` manipulates: the `_clock_thread` attribute, plus a
ghost count of run-loop threads actually spawned. -/
structure StartState where
  clockThread : Option Unit
  threadsStarted : ℕ
deriving DecidableEq, Repr

/-- Embedding of `Clock.start` (clock.py lines 85-88): under `if not self._clock_thread`, a
new thread running `self.run` is spawned, and `self._clock_thread` is assigned
the return value of `Thread.start()` — which is `None`. -/
def clockStart (s : StartState) : StartState :=
  if s.clockThread = none then
    ⟨threadStartReturn, s.threadsStarted + 1⟩
  else s

/-- C9: evaluating `Clock.start` twice from a fresh clock.  Because
`Thread(...).start()` returns `None`, `_clock_thread` stays `None`, the guard
`if not self._clock_thread` passes again, and the second call spawns a second
run loop — the code contradicts the intended (and spec-stated) idempotence
that its own guard tries to implement. -/
theorem clock_start_not_idempotent :
    clockStart ⟨none, 0⟩ = ⟨none, 1⟩ ∧
    clockStart (clockStart ⟨none, 0⟩) = ⟨none, 2⟩ := by
  constructor <;> rfl

/-- A fully resolved `dur` value: a plain number of beats, or the `Rest`
marker of `Pattern.py` carrying its duration (as read by
`kwargs["time"].duration` in `_push`). -/
inductive TimeVal where
  | num : ℚ → TimeVal
  | rest : ℚ → TimeVal
deriving DecidableEq, Repr

/-- The `dur` kwarg of a pattern as the `while` loop of `_push`
(Player.py lines 207-211) sees it: a plain value, a `Pattern` (called with
`self.iterator`), or a zero-argument callable, possibly nested. -/
inductive TimeExpr where
  | val : TimeVal → TimeExpr
  | pat : (ℤ → TimeExpr) → TimeExpr
  | lazy : (Unit → TimeExpr) → TimeExpr

/-- The `while isinstance(kwargs["time"], Callable | LambdaType | Pattern)`
loop of `_push`: a `Pattern` is called with the current iterator, a callable
with no arguments, until a plain value remains. -/
def resolveTime (it : ℤ) : TimeExpr → TimeVal
  | TimeExpr.val v => v
  | TimeExpr.pat f => resolveTime it (f it)
  | TimeExpr.lazy f => resolveTime it (f ())

/-- A positional argument of a `PlayerPattern`: a concrete value (modelled as
an integer), a zero-argument lazy producer, or a `Pattern` indexed by
`iterator - silence_count`. -/
inductive ArgVal where
  | concrete : ℤ → ArgVal
  | lazyFn : (Unit → ℤ) → ArgVal
  | patFn : (ℤ → ℤ) → ArgVal

/-- Embedding of `Player._args_resolver` (Player.py lines 67-77): a `Pattern` argument is
called with `self.iterator - self._silence_count`, a callable is called with
no arguments, and — exactly as in the source, whose loop body has no `else`
branch — any other value is NOT appended to the result tuple. -/
def argsResolver (iterator silenceCount : ℤ) : List ArgVal → List ℤ
  | [] => []
  | ArgVal.patFn f :: rest =>
      f (iterator - silenceCount) :: argsResolver iterator silenceCount rest
  | ArgVal.lazyFn f :: rest =>
      f () :: argsResolver iterator silenceCount rest
  | ArgVal.concrete _ :: rest => argsResolver iterator silenceCount rest

/-- The value of a pattern's `quant` kwarg: the recognized policies (`"bar"`,
`"beat"`, `"now"`, a number), or any other value (`invalid s`), which matches
none of the `if`/`elif` branches of `_push`. -/
inductive Quant where
  | bar : Quant
  | beat : Quant
  | now : Quant
  | numeric : ℚ → Quant
  | invalid : String → Quant
deriving DecidableEq, Repr

/-- The `PlayerPattern` dataclass together with the kwargs entries `_push`
reads: `dur` and `quant` are `none` when the kwarg is absent (so the `.get`
defaults `1` and `"now"` apply); `once` and `passthrough` hold the result of
`kwargs.get(..., False)`; `sendRaises` abstracts whether `send_method` raises
when invoked. -/
structure PlayerPattern where
  args : List ArgVal
  dur : Option TimeExpr
  quant : Option Quant
  once : Bool
  passthrough : Bool
  sendRaises : Bool

/-- The dur default, `kwargs.get("dur", 1)`. -/
def durExpr (p : PlayerPattern) : TimeExpr :=
  p.dur.getD (TimeExpr.val (TimeVal.num 1))

/-- The mutable state of a `Player` (`__init__`, Player.py lines 24-34). -/
structure PlayerState where
  iterator : ℤ
  silenceCount : ℤ
  pattern : Option PlayerPattern
  nextPattern : Option PlayerPattern
  transitionScheduled : Bool

/-- The source line `current_pattern = self._pattern or self._next_pattern`. -/
def currentPattern (st : PlayerState) : Option PlayerPattern :=
  match st.pattern with
  | some p => some p
  | none => st.nextPattern

/-- Which Player callback a scheduler entry will invoke: `Player._func`,
`Player._silence`, or `Player._transition_to_next_pattern`. -/
inductive TFunc where
  | step : TFunc
  | silence : TFunc
  | transition : TFunc
deriving DecidableEq, Repr

/-- Modelled from the spec: one ScheduledActivation of the scheduler that
`Player` talks to (`baston/time/clock.py`, which is not under `src/` — only
its callers are): a stable string identity, the due beat, and the payload
(the Player callback to invoke, the pattern snapshot, and the flags passed
through `add`'s kwargs). -/
structure TEntry where
  name : String
  due : ℚ
  func : TFunc
  pat : Option PlayerPattern
  once : Bool
  passthrough : Bool

/-- Modelled from the spec: `add` of the missing `baston/time/clock.py`
scheduler.  Per §4.1 it "inserts or overwrites the ScheduledActivation for
`identity`", overwriting due beat and payload in place (the stored `once` of
an existing entry is kept, as in the sibling `clock.py` `add`); per §4.3
step 4, a `relative=True` re-arm is due at "the current due beat plus the
resolved dur", i.e. the existing entry's due beat plus `time`, while a
non-relative add uses `time` as the absolute due beat. -/
def tclockAdd (reg : List TEntry) (name : String) (func : TFunc)
    (pat : Option PlayerPattern) (once passthrough relative : Bool)
    (time : ℚ) : List TEntry :=
  let due :=
    if relative then
      match reg.find? (fun e => e.name == name) with
      | some old => old.due + time
      | none => time
    else time
  if reg.any (fun e => e.name == name) then
    reg.map (fun e =>
      if e.name == name then ⟨e.name, due, func, pat, e.once, passthrough⟩ else e)
  else
    reg ++ [⟨name, due, func, pat, once, passthrough⟩]

/-- Python's `%` for a positive modulus: `a - b * floor(a / b)`. -/
def pymod (a b : ℚ) : ℚ := a - b * ⌊a / b⌋

/-- Embedding of `Clock.beats_until_next_bar` (clock.py lines 140-142):
`self._denominator - self._beat % self._denominator`. -/
def beatsUntilNextBar (beat denom : ℚ) : ℚ := denom - pymod beat denom

/-- Embedding of `Clock.next_bar` (clock.py lines 188-190):
`self.beat + self.beats_until_next_bar()`. -/
def clockNextBar (beat denom : ℚ) : ℚ := beat + beatsUntilNextBar beat denom

/-- The clock read-accessors `_push` consults: the current beat, the next bar
boundary and the next beat boundary. -/
structure ClockView where
  beat : ℚ
  nextBar : ℚ
  nextBeat : ℚ

/-- Embedding of `Player._push` (Player.py lines 190-233, the later binding, which is the
one in effect): resolve the `dur` kwarg through the `while` loop; a `Rest`
becomes its duration, increments `_silence_count` and routes the entry to
`_silence`; when this is not an `again` re-arm the quantization policy
replaces the time (`bar`/`beat`/`now`/numeric offset — an unrecognized policy
matches no branch and leaves the resolved dur in place); finally the result is
registered under the Player's name with `relative = again`. -/
def playerPush (cv : ClockView) (name : String) (reg : List TEntry)
    (st : PlayerState) (again : Bool) : PlayerState × List TEntry :=
  match currentPattern st with
  | none => (st, reg)
  | some cp =>
    let t0 := resolveTime st.iterator (durExpr cp)
    let time0 := match t0 with
      | TimeVal.num d => d
      | TimeVal.rest d => d
    let scheduleSilence := match t0 with
      | TimeVal.num _ => false
      | TimeVal.rest _ => true
    let st1 := match t0 with
      | TimeVal.num _ => st
      | TimeVal.rest _ => { st with silenceCount := st.silenceCount + 1 }
    let time1 :=
      if again then time0
      else
        match cp.quant.getD Quant.now with
        | Quant.bar => cv.nextBar
        | Quant.beat => cv.nextBeat
        | Quant.now => cv.beat
        | Quant.numeric q => cv.beat + q
        | Quant.invalid _ => time0
    (st1, tclockAdd reg name
      (if scheduleSilence then TFunc.silence else TFunc.step)
      (some cp) cp.once cp.passthrough again time1)

/-- One scheduler-invoked Player activation.  `Player._silence` (lines 97-100)
increments the iterator and re-arms without touching the sink; `Player._func`
(lines 235-248) resolves args/kwargs, invokes `send_method` (exceptions are
caught and printed), increments the iterator and re-arms;
`Player._transition_to_next_pattern` (lines 260-267) promotes the staged
pattern and resets the counters.  The returned flag records whether the sink
action was invoked. -/
def playerActivate (cv : ClockView) (name : String) (func : TFunc)
    (payload : Option PlayerPattern) (reg : List TEntry) (st : PlayerState) :
    (PlayerState × List TEntry) × Bool :=
  match func with
  | TFunc.silence =>
      (playerPush cv name reg { st with iterator := st.iterator + 1 } true, false)
  | TFunc.step =>
      match payload with
      | none => ((st, reg), false)
      | some _ =>
          (playerPush cv name reg { st with iterator := st.iterator + 1 } true, true)
  | TFunc.transition =>
      match st.nextPattern with
      | none => ((st, reg), false)
      | some np =>
          (playerPush cv name reg
            { st with pattern := some np, nextPattern := none, iterator := 0, silenceCount := 0 }
            false, false)

/-- Embedding of `Player.stop` (lines 146-153); the scheduler's `remove_by_name` is
modelled from the spec (§4.1: deletes the matching entry if present, absence
is not an error). -/
def playerStop (name : String) (reg : List TEntry) (_st : PlayerState) :
    PlayerState × List TEntry :=
  (⟨0, 0, none, none, false⟩, reg.eraseP (fun e => e.name == name))

/-- Embedding of `Player.__mul__` (lines 177-188): pushing `None` stops the player; a first
pattern is installed and pushed immediately; if a pattern is already active
the new one is staged as `_next_pattern` and a transition entry is scheduled
at the next beat under `f"{name}_pattern_transition"`
(`_schedule_next_pattern`, lines 250-258). -/
def playerMul (cv : ClockView) (name : String) (reg : List TEntry)
    (st : PlayerState) (p : Option PlayerPattern) : PlayerState × List TEntry :=
  match p with
  | none => playerStop name reg st
  | some pat =>
    match st.pattern with
    | none => playerPush cv name reg { st with pattern := some pat } false
    | some _ =>
        ({ st with nextPattern := some pat },
         tclockAdd reg (name ++ "_pattern_transition") TFunc.transition none
           false false false cv.nextBeat)

/-- Shape of `_push` on an `again` re-arm whose `dur` resolves to a `Rest`:
the silence counter is bumped and a `_silence` entry is registered relatively,
with the rest's duration as the time. -/
lemma playerPush_rest (cv : ClockView) (n : String) (reg : List TEntry)
    (st : PlayerState) (p : PlayerPattern) (d : ℚ)
    (hp : st.pattern = some p)
    (hrest : resolveTime st.iterator (durExpr p) = TimeVal.rest d) :
    playerPush cv n reg st true =
      ({ st with silenceCount := st.silenceCount + 1 },
       tclockAdd reg n TFunc.silence (some p) p.once p.passthrough true d) := by
  unfold playerPush currentPattern
  rw [hp]
  simp [hrest]

/-- Shape of `_push` on an `again` re-arm whose `dur` resolves to a plain
number: the state is unchanged and a `_func` entry is registered relatively. -/
lemma playerPush_num (cv : ClockView) (n : String) (reg : List TEntry)
    (st : PlayerState) (p : PlayerPattern) (d : ℚ)
    (hp : st.pattern = some p)
    (hnum : resolveTime st.iterator (durExpr p) = TimeVal.num d) :
    playerPush cv n reg st true =
      (st, tclockAdd reg n TFunc.step (some p) p.once p.passthrough true d) := by
  unfold playerPush currentPattern
  rw [hp]
  simp [hnum]

/-- Lookup `find?` at a key commutes with a key-preserving in-place map update. -/
lemma tfind_map_update (reg : List TEntry) (n : String) (g : TEntry → TEntry)
    (hg : ∀ e, (g e).name = e.name) :
    (reg.map (fun e => if e.name == n then g e else e)).find?
        (fun e => e.name == n) =
      (reg.find? (fun e => e.name == n)).map g := by
  induction reg with
  | nil => rfl
  | cons y ys ih =>
      by_cases hy : y.name = n
      · have hb : (y.name == n) = true := by simpa using hy
        have hb2 : ((g y).name == n) = true := by
          rw [hg y]
          exact hb
        simp only [List.map_cons, hb, if_true, List.find?_cons, hb2]
        rfl
      · have hb : (y.name == n) = false := by simpa using hy
        simp only [List.map_cons, hb, Bool.false_eq_true, if_false]
        rw [List.find?_cons_of_neg _ (by simp [hb]), List.find?_cons_of_neg _ (by simp [hb])]
        exact ih

/-- A relative `add` against an existing entry: the entry keeps its place and
name, its due beat becomes `old.due + time`, and its payload is replaced. -/
lemma tclockAdd_relative_find (reg : List TEntry) (n : String) (func : TFunc)
    (pat : Option PlayerPattern) (once passthrough : Bool) (time : ℚ)
    (old : TEntry) (hfind : reg.find? (fun e => e.name == n) = some old) :
    (tclockAdd reg n func pat once passthrough true time).find?
        (fun e => e.name == n) =
      some ⟨old.name, old.due + time, func, pat, old.once, passthrough⟩ := by
  have hmem : old ∈ reg := List.mem_of_find?_eq_some hfind
  have hpred : (old.name == n) = true :=
    @List.find?_some TEntry (fun e => e.name == n) old reg hfind
  have hany : (reg.any (fun e => e.name == n)) = true := by
    simp only [List.any_eq_true]
    exact ⟨old, hmem, hpred⟩
  unfold tclockAdd
  simp only [hfind, hany, if_true, if_pos]
  rw [tfind_map_update reg n
    (fun e => ⟨e.name, old.due + time, func, pat, e.once, passthrough⟩) (fun e => rfl)]
  rw [hfind]
  rfl

/-- A non-relative `add` under a fresh name appends a new entry due exactly at
`time`. -/
lemma tclockAdd_fresh (reg : List TEntry) (n : String) (func : TFunc)
    (pat : Option PlayerPattern) (once passthrough : Bool) (time : ℚ)
    (hfresh : ∀ e ∈ reg, (e.name == n) = false) :
    tclockAdd reg n func pat once passthrough false time =
      reg ++ [⟨n, time, func, pat, once, passthrough⟩] := by
  have hany : (reg.any (fun e => e.name == n)) = false := by
    simp only [List.any_eq_false]
    intro e he
    simp [hfresh e he]
  unfold tclockAdd
  simp [hany]

/-- A `_silence` activation whose following `dur` resolves to a plain number:
the iterator is incremented, the sink flag is false, and a `_func` entry is
re-armed relatively with that duration. -/
lemma playerActivate_silence_num (cv : ClockView) (n : String) (reg : List TEntry)
    (st : PlayerState) (p : PlayerPattern) (dnext : ℚ)
    (hp : st.pattern = some p)
    (hnext : resolveTime (st.iterator + 1) (durExpr p) = TimeVal.num dnext) :
    playerActivate cv n TFunc.silence (some p) reg st =
      (({ st with iterator := st.iterator + 1 },
        tclockAdd reg n TFunc.step (some p) p.once p.passthrough true dnext), false) := by
  unfold playerActivate
  rw [playerPush_num cv n reg { st with iterator := st.iterator + 1 } p dnext hp hnext]

/-- C5: a Player activation whose `dur` resolves to `Rest d` does not invoke
the sink (a `_silence` entry is scheduled instead of `_func`), increments the
silence counter by exactly one, and re-arms at the current due beat plus `d`;
after the silence activation runs (incrementing the iterator), the lookup
index `iterator - silence_count` used by the value resolvers equals its value
before the rest was detected — i.e. the rest leaves the pattern-lookup index
exactly where a non-rest step would have left it. -/
theorem player_rest_continuity
    (cv : ClockView) (n : String) (reg : List TEntry) (st : PlayerState)
    (p : PlayerPattern) (d dnext : ℚ) (old : TEntry)
    (hp : st.pattern = some p)
    (hrest : resolveTime st.iterator (durExpr p) = TimeVal.rest d)
    (hfind : reg.find? (fun e => e.name == n) = some old)
    (hnext : resolveTime (st.iterator + 1) (durExpr p) = TimeVal.num dnext) :
    (playerPush cv n reg st true).1.silenceCount = st.silenceCount + 1 ∧
    (playerPush cv n reg st true).1.iterator = st.iterator ∧
    (playerPush cv n reg st true).2.find? (fun e => e.name == n) =
      some ⟨old.name, old.due + d, TFunc.silence, some p, old.once, p.passthrough⟩ ∧
    (playerActivate cv n TFunc.silence (some p)
        (playerPush cv n reg st true).2 (playerPush cv n reg st true).1).2 = false ∧
    (playerActivate cv n TFunc.silence (some p)
        (playerPush cv n reg st true).2 (playerPush cv n reg st true).1).1.1.iterator -
      (playerActivate cv n TFunc.silence (some p)
        (playerPush cv n reg st true).2 (playerPush cv n reg st true).1).1.1.silenceCount =
      st.iterator - st.silenceCount := by
  have hpush := playerPush_rest cv n reg st p d hp hrest
  have hact := playerActivate_silence_num cv n
    (tclockAdd reg n TFunc.silence (some p) p.once p.passthrough true d)
    { st with silenceCount := st.silenceCount + 1 } p dnext hp hnext
  refine ⟨by rw [hpush], by rw [hpush], ?_, ?_, ?_⟩
  · rw [hpush]
    exact tclockAdd_relative_find reg n TFunc.silence (some p) p.once p.passthrough d old hfind
  · rw [hpush, hact]
  · rw [hpush, hact]
    show (st.iterator + 1) - (st.silenceCount + 1) = st.iterator - st.silenceCount
    ring

def c5Pattern : PlayerPattern :=
  ⟨[], some (TimeExpr.pat (fun k =>
      if k = 1 then TimeExpr.val (TimeVal.rest (3/2)) else TimeExpr.val (TimeVal.num 1))),
   none, false, false, false⟩

def c5State : PlayerState := ⟨1, 0, some c5Pattern, none, false⟩

def c5Entry : TEntry := ⟨"aa", 10, TFunc.step, some c5Pattern, false, false⟩

def c5Clock : ClockView := ⟨10, 12, 11⟩

theorem player_rest_continuity_witness :
    c5State.pattern = some c5Pattern ∧
    resolveTime c5State.iterator (durExpr c5Pattern) = TimeVal.rest (3/2) ∧
    ((playerPush c5Clock "aa" [c5Entry] c5State true).1.silenceCount =
        c5State.silenceCount + 1 ∧
      (playerPush c5Clock "aa" [c5Entry] c5State true).1.iterator = c5State.iterator ∧
      (playerPush c5Clock "aa" [c5Entry] c5State true).2.find? (fun e => e.name == "aa") =
        some ⟨c5Entry.name, c5Entry.due + 3/2, TFunc.silence, some c5Pattern,
          c5Entry.once, c5Pattern.passthrough⟩ ∧
      (playerActivate c5Clock "aa" TFunc.silence (some c5Pattern)
          (playerPush c5Clock "aa" [c5Entry] c5State true).2
          (playerPush c5Clock "aa" [c5Entry] c5State true).1).2 = false ∧
      (playerActivate c5Clock "aa" TFunc.silence (some c5Pattern)
          (playerPush c5Clock "aa" [c5Entry] c5State true).2
          (playerPush c5Clock "aa" [c5Entry] c5State true).1).1.1.iterator -
        (playerActivate c5Clock "aa" TFunc.silence (some c5Pattern)
          (playerPush c5Clock "aa" [c5Entry] c5State true).2
          (playerPush c5Clock "aa" [c5Entry] c5State true).1).1.1.silenceCount =
        c5State.iterator - c5State.silenceCount) :=
  ⟨rfl, rfl,
   player_rest_continuity c5Clock "aa" [c5Entry] c5State c5Pattern (3/2) 1 c5Entry
     rfl rfl rfl rfl⟩

/-- Shape of a first (non-`again`) `_push` whose `dur` resolves to a plain
number: the quantization policy decides the scheduled time. -/
lemma playerPush_first_quant (cv : ClockView) (n : String) (reg : List TEntry)
    (st : PlayerState) (p : PlayerPattern) (d0 : ℚ)
    (hp : st.pattern = some p)
    (hnum : resolveTime st.iterator (durExpr p) = TimeVal.num d0) :
    playerPush cv n reg st false =
      (st, tclockAdd reg n TFunc.step (some p) p.once p.passthrough false
        (match p.quant.getD Quant.now with
         | Quant.bar => cv.nextBar
         | Quant.beat => cv.nextBeat
         | Quant.now => cv.beat
         | Quant.numeric q => cv.beat + q
         | Quant.invalid _ => d0)) := by
  unfold playerPush currentPattern
  rw [hp]
  simp [hnum]

/-- C6: assigning a first pattern with `quant="bar"` while the clock reads
beat `6.3` with bar length `4` schedules the first activation at beat `8`
(the next bar boundary computed by `beats_until_next_bar`/`next_bar`), not at
`6.3` plus the pattern's dur. -/
theorem player_quantized_entry (cv : ClockView) (n : String) (reg : List TEntry)
    (st : PlayerState) (p : PlayerPattern) (d0 : ℚ)
    (hp : st.pattern = none)
    (hq : p.quant = some Quant.bar)
    (hnum : resolveTime st.iterator (durExpr p) = TimeVal.num d0)
    (hfresh : ∀ e ∈ reg, (e.name == n) = false)
    (hbeat : cv.beat = 63/10)
    (hbar : cv.nextBar = clockNextBar cv.beat 4) :
    cv.nextBar = 8 ∧
    playerMul cv n reg st (some p) =
      ({ st with pattern := some p },
       reg ++ [⟨n, 8, TFunc.step, some p, p.once, p.passthrough⟩]) := by
  have hfloor : (⌊(63 / 10 : ℚ) / 4⌋ : ℤ) = 1 := by
    rw [Int.floor_eq_iff]
    norm_num
  have h8 : cv.nextBar = 8 := by
    rw [hbar, hbeat]
    unfold clockNextBar beatsUntilNextBar pymod
    rw [show ((63 : ℚ) / 10) / 4 = (63 / 10) / 4 from rfl, hfloor]
    norm_num
  refine ⟨h8, ?_⟩
  have hmul : playerMul cv n reg st (some p) =
      playerPush cv n reg { st with pattern := some p } false := by
    unfold playerMul
    rw [hp]
  rw [hmul, playerPush_first_quant cv n reg { st with pattern := some p } p d0 rfl hnum]
  rw [hq]
  simp only [Option.getD]
  rw [tclockAdd_fresh reg n TFunc.step (some p) p.once p.passthrough cv.nextBar hfresh]
  rw [h8]

def c6Pattern : PlayerPattern := ⟨[], none, some Quant.bar, false, false, false⟩

def c6State : PlayerState := ⟨0, 0, none, none, false⟩

def c6Clock : ClockView := ⟨63/10, clockNextBar (63/10) 4, 7⟩

theorem player_quantized_entry_witness :
    c6State.pattern = none ∧ c6Pattern.quant = some Quant.bar ∧
    c6Clock.beat = 63/10 ∧
    (c6Clock.nextBar = 8 ∧
      playerMul c6Clock "ab" [] c6State (some c6Pattern) =
        ({ c6State with pattern := some c6Pattern },
         [] ++ [⟨"ab", 8, TFunc.step, some c6Pattern, c6Pattern.once,
            c6Pattern.passthrough⟩])) :=
  ⟨rfl, rfl, rfl,
   player_quantized_entry c6Clock "ab" [] c6State c6Pattern 1 rfl rfl rfl
     (fun e he => absurd he (List.not_mem_nil e)) rfl rfl⟩

/-- C7: `Player._args_resolver` evaluated at the failing input — a single
plain (concrete) positional value `42` with iterator and silence count `0`.
The source's loop has branches only for `Pattern` and `Callable` arguments and
no `else`, so the plain value is dropped: the resolved tuple is empty rather
than `(42,)`, contradicting the spec's "otherwise pass through unchanged"
(and the equal-length consequence). -/
theorem player_args_resolver_drops_concrete :
    argsResolver 0 0 [ArgVal.concrete 42] = [] ∧
    (argsResolver 0 0 [ArgVal.concrete 42]).length ≠
      ([ArgVal.concrete 42] : List ArgVal).length := by
  exact ⟨rfl, by decide⟩

def c8Pattern : PlayerPattern := ⟨[], none, some (Quant.invalid "wat"), false, false, false⟩

def c8State : PlayerState := ⟨0, 0, none, none, false⟩

def c8Clock : ClockView := ⟨5, 8, 6⟩

/-- C8 counterexample: pushing a first pattern whose `quant` is the
unrecognized value `"wat"` is NOT rejected: no branch of `_push`'s `if`/`elif`
chain matches, no exception is raised anywhere, the Player's `_pattern` is set,
and `clock.add` is still called — a registry entry appears, due at the
resolved dur value (`1`).  This refutes "rejected synchronously ... no
registry entry is added or modified and no Player state changes". -/
theorem player_invalid_quant_counterexample :
    (playerMul c8Clock "aa" [] c8State (some c8Pattern)).1.pattern = some c8Pattern ∧
    (playerMul c8Clock "aa" [] c8State (some c8Pattern)).2 =
      [⟨"aa", 1, TFunc.step, some c8Pattern, false, false⟩] := by
  exact ⟨rfl, rfl⟩

/-- C8 (amended): a quantization policy outside `{bar, beat, now, numeric}`
is silently ignored rather than rejected: pattern assignment proceeds, the
Player's pattern is installed, and the first activation is scheduled with the
resolved `dur` value as its (absolute) due beat. -/
theorem player_invalid_quant_schedules (cv : ClockView) (n : String)
    (reg : List TEntry) (st : PlayerState) (p : PlayerPattern) (s : String) (d0 : ℚ)
    (hp : st.pattern = none)
    (hq : p.quant = some (Quant.invalid s))
    (hnum : resolveTime st.iterator (durExpr p) = TimeVal.num d0)
    (hfresh : ∀ e ∈ reg, (e.name == n) = false) :
    playerMul cv n reg st (some p) =
      ({ st with pattern := some p },
       reg ++ [⟨n, d0, TFunc.step, some p, p.once, p.passthrough⟩]) := by
  have hmul : playerMul cv n reg st (some p) =
      playerPush cv n reg { st with pattern := some p } false := by
    unfold playerMul
    rw [hp]
  rw [hmul, playerPush_first_quant cv n reg { st with pattern := some p } p d0 rfl hnum]
  rw [hq]
  simp only [Option.getD]
  rw [tclockAdd_fresh reg n TFunc.step (some p) p.once p.passthrough d0 hfresh]

def c8bPattern : PlayerPattern := ⟨[], some (TimeExpr.val (TimeVal.num 2)), some (Quant.invalid "oops"), true, false, false⟩

theorem player_invalid_quant_schedules_witness :
    c8State.pattern = none ∧
    c8bPattern.quant = some (Quant.invalid "oops") ∧
    playerMul c8Clock "bb" [] c8State (some c8bPattern) =
      ({ c8State with pattern := some c8bPattern },
       [] ++ [⟨"bb", 2, TFunc.step, some c8bPattern, c8bPattern.once,
          c8bPattern.passthrough⟩]) :=
  ⟨rfl, rfl,
   player_invalid_quant_schedules c8Clock "bb" [] c8State c8bPattern "oops" 2
     rfl rfl rfl (fun e he => absurd he (List.not_mem_nil e))⟩
